/-
Verification of the OVP curve/histogram generators.

The Python sources (build_ovp_curve.py, build_ovp_histogram.py) are embedded
shallowly: floats become exact rationals (ℚ), numpy arrays become lists, and
the interactive prompt loops become explicit validation results (`Except`).
Every definition mirrors the corresponding Python function; theorems settle
the specification claims about them.
-/
import Mathlib

namespace OVP

/-- A 2-D point, mirroring the `Pt` dataclass of build_ovp_curve.py. -/
structure Pt where
  x : ℚ
  y : ℚ
deriving DecidableEq, Repr

instance : Inhabited Pt := ⟨⟨0, 0⟩⟩

/-- A cubic Bezier segment `(P1, C1, C2, P2)` as produced by
`catmull_rom_to_bezier` (on-curve start, two control points, on-curve end). -/
def Seg := Pt × Pt × Pt × Pt

instance : DecidableEq Seg := instDecidableEqProd
instance : Inhabited Seg := ⟨(default, default, default, default)⟩

/-- First virtual endpoint: `ext[0] = P[0] - (P[1] - P[0])`
(build_ovp_curve.py lines 33-34). -/
def mirrorFirst (p0 p1 : Pt) : Pt :=
  ⟨p0.x - (p1.x - p0.x), p0.y - (p1.y - p0.y)⟩

/-- Last virtual endpoint: `ext[-1] = P[-1] + (P[-1] - P[-2])`
(build_ovp_curve.py lines 35-36). -/
def mirrorLast (plast pprev : Pt) : Pt :=
  ⟨plast.x + (plast.x - pprev.x), plast.y + (plast.y - pprev.y)⟩

/-- The extended point sequence `ext` of `catmull_rom_to_bezier`
(build_ovp_curve.py lines 31-36): the input points with the two mirrored
virtual endpoints prepended/appended. -/
def extSeq (points : List Pt) : List Pt :=
  mirrorFirst (points.getD 0 default) (points.getD 1 default) ::
    points ++ [mirrorLast (points.getLastD default) (points.getD (points.length - 2) default)]

/-- One Bezier segment from the window `ext[j], ext[j+1], ext[j+2], ext[j+3]`
(build_ovp_curve.py lines 40-43; the Python loop index `i` is `j+1`). -/
def mkSeg (ext : List Pt) (j : ℕ) : Seg :=
  let P0 := ext.getD j default
  let P1 := ext.getD (j + 1) default
  let P2 := ext.getD (j + 2) default
  let P3 := ext.getD (j + 3) default
  (P1,
   ⟨P1.x + (P2.x - P0.x) / 6, P1.y + (P2.y - P0.y) / 6⟩,
   ⟨P2.x - (P3.x - P1.x) / 6, P2.y - (P3.y - P1.y) / 6⟩,
   P2)

/-- The segment list built by the loop of build_ovp_curve.py lines 38-44. -/
def catmullSegs (points : List Pt) : List Seg :=
  (List.range (points.length - 1)).map (mkSeg (extSeq points))

/-- `catmull_rom_to_bezier` (build_ovp_curve.py lines 24-44), including the
`ValueError` raised when fewer than two points are given. -/
def catmull_rom_to_bezier (points : List Pt) : Except String (List Seg) :=
  if points.length < 2 then .error "Need at least two points"
  else .ok (catmullSegs points)

/-- Evaluation of a cubic Bezier at parameter `t` with the Bernstein basis
(build_ovp_curve.py lines 49-54). -/
def bezierPoint (s : Seg) (t : ℚ) : Pt :=
  let b0 := (1 - t) ^ 3
  let b1 := 3 * (1 - t) ^ 2 * t
  let b2 := 3 * (1 - t) * t ^ 2
  let b3 := t ^ 3
  ⟨b0 * s.1.x + b1 * s.2.1.x + b2 * s.2.2.1.x + b3 * s.2.2.2.x,
   b0 * s.1.y + b1 * s.2.1.y + b2 * s.2.2.1.y + b3 * s.2.2.2.y⟩

/-- `np.linspace(0.0, 1.0, m)`: the `m` values `k/(m-1)`, `k = 0..m-1`
(build_ovp_curve.py line 48). -/
def linspace (m : ℕ) : List ℚ :=
  (List.range m).map fun (k : ℕ) => (k : ℚ) / ((m : ℚ) - 1)

/-- `sample_bezier` (build_ovp_curve.py lines 46-55): the segment evaluated at
the `m` linspace parameter values, endpoints included. -/
def sample_bezier (s : Seg) (m : ℕ) : List Pt :=
  (linspace m).map (bezierPoint s)

/-- The samples contributed by the segments after the first: each segment's
sample list with its first (t = 0) sample dropped
(build_ovp_curve.py lines 89-90). -/
def denseTail (segs : List Seg) (m : ℕ) : List Pt :=
  (segs.map fun s2 => (sample_bezier s2 m).drop 1).flatten

/-- Concatenation of the per-segment samples with the first sample of every
segment after the first dropped (build_ovp_curve.py lines 86-92). -/
def buildDense (segs : List Seg) (m : ℕ) : List Pt :=
  match segs with
  | [] => []
  | s :: rest => sample_bezier s m ++ denseTail rest m

/-- The dense sequence obtained from a control-point list: segments from
`catmull_rom_to_bezier`, sampled and joined as in `main`. -/
def denseOf (points : List Pt) (m : ℕ) : List Pt :=
  buildDense (catmullSegs points) m

/-- The fixed band-edge table of `main` (build_ovp_curve.py lines 97-101). -/
def bands : List (ℚ × ℚ × String) :=
  [(2, 3, "2–3"), (3, 4, "3–4"), (4, 5, "4–5"), (5, 6, "5–6"), (6, 7, "6–7")]

/-- The `1e-12` boundary margin of the band masks (build_ovp_curve.py
line 106), taken at its exact decimal value. -/
def bandEps : ℚ := 1 / 1000000000000

/-- The membership mask for band `i`:
`(x >= lo) & (x <= (hi if last band else hi - 1e-12))`
(build_ovp_curve.py line 106). -/
def bandMask (i : ℕ) (lo hi x : ℚ) : Bool :=
  decide (lo ≤ x) && decide (x ≤ if i = bands.length - 1 then hi else hi - bandEps)

/-- The five per-band column entries of one row: the row's `y` inside the
band, blank (`none`, i.e. NaN) outside (build_ovp_curve.py lines 104-107). -/
def perBandEntries (p : Pt) : List (Option ℚ) :=
  bands.enum.map fun ib => if bandMask ib.1 ib.2.1 ib.2.2.1 p.x then some p.y else none

/-- Round to the nearest integer, ties to even: the rounding used by Python's
`f"{v:.0f}"` format (build_ovp_curve.py line 114). -/
def roundHalfEven (q : ℚ) : ℤ :=
  let f := ⌊q⌋
  let r := q - f
  if r < 1 / 2 then f
  else if 1 / 2 < r then f + 1
  else if f % 2 = 0 then f else f + 1

/-- The label text `f"{pt.y*100:.0f}%"` (build_ovp_curve.py line 114). -/
def fmtPct (y : ℚ) : String := toString (roundHalfEven (y * 100)) ++ "%"

/-- Index of the first occurrence of the minimum of a list, as computed by
`Series.idxmin` on the distance series (build_ovp_curve.py line 113). -/
def idxmin : List ℚ → ℕ
  | [] => 0
  | [_] => 0
  | a :: b :: rest =>
    let j := idxmin (b :: rest)
    if (b :: rest).getD j 0 < a then j + 1 else 0

/-- The dense-sample index that receives a control point's label: the first
index minimising `|x - pt.x|` (build_ovp_curve.py line 113). -/
def labelIdx (dense : List Pt) (p : Pt) : ℕ :=
  idxmin (dense.map fun d => |d.x - p.x|)

/-- The label column: start from all-blank and write each control point's
formatted label at its nearest sample (build_ovp_curve.py lines 110-114). -/
def placeLabels (dense : List Pt) (mids : List Pt) : List String :=
  mids.foldl (fun labels p => labels.set (labelIdx dense p) (fmtPct p.y))
    (List.replicate dense.length "")

/-- One output row of the `curve_data` worksheet: `x`, `y`, the five band
columns, and the label column (build_ovp_curve.py lines 94-118). -/
structure Row where
  x : ℚ
  y : ℚ
  perBand : List (Option ℚ)
  label : String
deriving DecidableEq, Repr

instance : Inhabited Row := ⟨⟨0, 0, [], ""⟩⟩

/-- The rows of the output table, one per dense sample in order. -/
def mkRows (dense : List Pt) (labels : List String) : List Row :=
  (dense.zip labels).map fun pl => ⟨pl.1.x, pl.1.y, perBandEntries pl.1, pl.2⟩

/-- `mids.sort(key=lambda p: p.x)` (build_ovp_curve.py line 73). -/
def sortByX (mids : List Pt) : List Pt :=
  List.insertionSort (fun a b : Pt => a.x ≤ b.x) mids

/-- The computational content of `main` (build_ovp_curve.py lines 59-118):
sort the control points by x; refuse a samples-per-segment below 4 (the
prompt loop of lines 75-82 never lets such a value through, modelled as an
`InvalidInput` result); build the Bezier segments, the dense sequence, the
band columns and the label column. `nPerSeg` is the integer the prompt
parses. -/
def runPipeline (mids0 : List Pt) (nPerSeg : ℤ) : Except String (List Row) :=
  let mids := sortByX mids0
  if nPerSeg < 4 then .error "InvalidInput"
  else
    match catmull_rom_to_bezier mids with
    | .error e => .error e
    | .ok segs =>
      let dense := buildDense segs nPerSeg.toNat
      .ok (mkRows dense (placeLabels dense mids))

/-! ## Histogram aggregator (build_ovp_histogram.py) -/

/-- The explicit bin edges (build_ovp_histogram.py line 49). -/
def histEdges : List ℚ := [2, 3, 4, 5, 6, 7]

/-- The bins `(edges[i], edges[i+1])` (build_ovp_histogram.py line 50). -/
def histBins : List (ℚ × ℚ) :=
  (List.range (histEdges.length - 1)).map fun i => (histEdges.getD i 0, histEdges.getD (i + 1) 0)

/-- Cleaning/coercion of the two input columns (build_ovp_histogram.py lines
38-42): a cell that fails numeric coercion is `none`; rows with a missing
value are dropped, as are rows with non-positive headcount. -/
def cleanRows (raw : List (Option ℚ × Option ℚ)) : List (ℚ × ℚ) :=
  raw.filterMap fun r =>
    match r.1, r.2 with
    | some ovp, some hc => if 0 < hc then some (ovp, hc) else none
    | _, _ => none

/-- The bin-membership mask (build_ovp_histogram.py lines 56-59): half-open
`lo ≤ v < hi` except the last bin, which is closed. -/
def histMask (i : ℕ) (lo hi v : ℚ) : Bool :=
  if i < histBins.length - 1 then decide (lo ≤ v) && decide (v < hi)
  else decide (lo ≤ v) && decide (v ≤ hi)

/-- The headcount total of one bin (build_ovp_histogram.py line 60). -/
def binSum (work : List (ℚ × ℚ)) (i : ℕ) (lo hi : ℚ) : ℚ :=
  ((work.filter fun r => histMask i lo hi r.1).map Prod.snd).sum

/-- First pass over the bins: `(lo, hi, headcount)` per bin
(build_ovp_histogram.py lines 52-62). -/
def histResults (work : List (ℚ × ℚ)) : List (ℚ × ℚ × ℚ) :=
  histBins.enum.map fun ib => (ib.2.1, ib.2.2, binSum work ib.1 ib.2.1 ib.2.2)

/-- The in-range total headcount (build_ovp_histogram.py lines 53-61). -/
def totalHC (work : List (ℚ × ℚ)) : ℚ :=
  ((histResults work).map fun r => r.2.2).sum

/-- One output row of the `ovp_histogram` worksheet
(build_ovp_histogram.py lines 70-77). -/
structure HistRow where
  lower : ℚ
  upper : ℚ
  midpoint : ℚ
  rangeLabel : String
  headcount : ℚ
  share : ℚ
deriving DecidableEq, Repr

/-- Second pass: shares and midpoints (build_ovp_histogram.py lines 64-77);
the share division is guarded by `total_hc > 0`. -/
def histRows (work : List (ℚ × ℚ)) : List HistRow :=
  (histResults work).map fun r =>
    ⟨r.1, r.2.1, (r.1 + r.2.1) / 2, toString ⌊r.1⌋ ++ "–" ++ toString ⌊r.2.1⌋, r.2.2,
     if 0 < totalHC work then r.2.2 / totalHC work else 0⟩

/-- The computational content of the histogram `main`
(build_ovp_histogram.py lines 37-79): clean the rows, fail if nothing
survives cleaning (line 44), otherwise produce the six-column bin table. -/
def runHistogram (raw : List (Option ℚ × Option ℚ)) : Except String (List HistRow) :=
  let work := cleanRows raw
  if work = [] then .error "No valid rows after cleaning"
  else .ok (histRows work)

/-! ## Structural lemmas about the segment builder and sampler -/

theorem extSeq_length (pts : List Pt) : (extSeq pts).length = pts.length + 2 := by
  simp [extSeq]

theorem extSeq_getD_succ (pts : List Pt) (j : ℕ) (hj : j < pts.length) :
    (extSeq pts).getD (j + 1) default = pts.getD j default := by
  have h : extSeq pts
      = (mirrorFirst (pts.getD 0 default) (pts.getD 1 default) :: pts)
        ++ [mirrorLast (pts.getLastD default) (pts.getD (pts.length - 2) default)] := rfl
  rw [h, List.getD_append _ _ _ _ (by simp only [List.length_cons]; omega),
    List.getD_eq_getElem?_getD, List.getElem?_cons_succ, ← List.getD_eq_getElem?_getD]

theorem getD_map_range {β : Type} [Inhabited β] (f : ℕ → β) (k i : ℕ) (h : i < k) :
    ((List.range k).map f).getD i default = f i := by
  have hlen : i < ((List.range k).map f).length := by
    rw [List.length_map, List.length_range]
    exact h
  rw [List.getD_eq_getElem _ _ hlen, List.getElem_map, List.getElem_range]

theorem catmullSegs_length (pts : List Pt) : (catmullSegs pts).length = pts.length - 1 := by
  simp [catmullSegs]

theorem catmullSegs_getD (pts : List Pt) (i : ℕ) (h : i < pts.length - 1) :
    (catmullSegs pts).getD i default = mkSeg (extSeq pts) i := by
  unfold catmullSegs
  exact getD_map_range _ _ _ h

theorem mkSeg_fst (ext : List Pt) (j : ℕ) : (mkSeg ext j).1 = ext.getD (j + 1) default := rfl

theorem mkSeg_last (ext : List Pt) (j : ℕ) :
    (mkSeg ext j).2.2.2 = ext.getD (j + 2) default := rfl

theorem catmullSegs_endpoints (pts : List Pt) (i : ℕ) (hi : i < pts.length - 1) :
    ((catmullSegs pts).getD i default).1 = pts.getD i default ∧
      ((catmullSegs pts).getD i default).2.2.2 = pts.getD (i + 1) default := by
  rw [catmullSegs_getD pts i hi]
  constructor
  · rw [mkSeg_fst, extSeq_getD_succ pts i (by omega)]
  · rw [mkSeg_last]
    have : i + 2 = (i + 1) + 1 := by omega
    rw [this, extSeq_getD_succ pts (i + 1) (by omega)]

theorem sample_bezier_length (s : Seg) (m : ℕ) : (sample_bezier s m).length = m := by
  unfold sample_bezier linspace
  rw [List.length_map, List.length_map, List.length_range]

theorem sample_bezier_ne_nil (s : Seg) (m : ℕ) (hm : 1 ≤ m) : sample_bezier s m ≠ [] := by
  intro h
  have := sample_bezier_length s m
  rw [h] at this
  simp at this
  omega

theorem sample_bezier_getD (s : Seg) (m k : ℕ) (h : k < m) :
    (sample_bezier s m).getD k default = bezierPoint s ((k : ℚ) / ((m : ℚ) - 1)) := by
  unfold sample_bezier linspace
  rw [List.map_map]
  exact getD_map_range _ _ _ h

theorem bezierPoint_zero (s : Seg) : bezierPoint s 0 = s.1 := by
  have h : s.1 = (⟨s.1.x, s.1.y⟩ : Pt) := rfl
  rw [h]
  simp only [bezierPoint, Pt.mk.injEq]
  constructor <;> norm_num

theorem bezierPoint_one (s : Seg) : bezierPoint s 1 = s.2.2.2 := by
  have h : s.2.2.2 = (⟨s.2.2.2.x, s.2.2.2.y⟩ : Pt) := rfl
  rw [h]
  simp only [bezierPoint, Pt.mk.injEq]
  constructor <;> norm_num

theorem cast_pred_div_pred (m : ℕ) (hm : 2 ≤ m) :
    (((m - 1 : ℕ) : ℚ)) / ((m : ℚ) - 1) = 1 := by
  have h1 : ((m - 1 : ℕ) : ℚ) = (m : ℚ) - 1 := by
    push_cast [Nat.cast_sub (by omega : 1 ≤ m)]
    ring
  rw [h1, div_self]
  have : (2 : ℚ) ≤ (m : ℚ) := by exact_mod_cast hm
  nlinarith

theorem denseTail_length (segs : List Seg) (m : ℕ) :
    (denseTail segs m).length = segs.length * (m - 1) := by
  induction segs with
  | nil => simp [denseTail]
  | cons s rest ih =>
    simp only [denseTail, List.map_cons, List.flatten_cons, List.length_append,
      List.length_drop, sample_bezier_length]
    simp only [denseTail] at ih
    rw [ih, List.length_cons, Nat.succ_mul]
    omega

theorem drop_one_getD (l : List Pt) (k : ℕ) (hk : 1 ≤ k) :
    (l.drop 1).getD (k - 1) default = l.getD k default := by
  have h : 1 + (k - 1) = k := by omega
  rw [List.getD_eq_getElem?_getD, List.getD_eq_getElem?_getD, List.getElem?_drop, h]

theorem denseTail_getD (m k : ℕ) (hm : 2 ≤ m) (hk1 : 1 ≤ k) (hk : k < m) :
    ∀ (segs : List Seg) (i : ℕ), i < segs.length →
      (denseTail segs m).getD (i * (m - 1) + (k - 1)) default
        = bezierPoint (segs.getD i default) ((k : ℚ) / ((m : ℚ) - 1)) := by
  intro segs
  induction segs with
  | nil => intro i hi; simp at hi
  | cons s rest ih =>
    intro i hi
    have hlen : ((sample_bezier s m).drop 1).length = m - 1 := by
      simp [sample_bezier_length]
    match i with
    | 0 =>
      simp only [denseTail, List.map_cons, List.flatten_cons, Nat.zero_mul, Nat.zero_add]
      rw [List.getD_append _ _ _ _ (by omega : k - 1 < ((sample_bezier s m).drop 1).length)]
      rw [drop_one_getD _ k hk1, sample_bezier_getD s m k hk]
      simp
    | i' + 1 =>
      have hmul : (i' + 1) * (m - 1) = i' * (m - 1) + (m - 1) := by ring
      simp only [denseTail, List.map_cons, List.flatten_cons]
      rw [List.getD_append_right]
      · rw [hlen]
        have harith : (i' + 1) * (m - 1) + (k - 1) - (m - 1) = i' * (m - 1) + (k - 1) := by
          rw [hmul]; omega
        rw [harith]
        have hi' : i' < rest.length := by
          simp only [List.length_cons] at hi
          omega
        have := ih i' hi'
        simp only [denseTail] at this
        rw [this]
        simp
      · rw [hlen, hmul]
        omega

theorem buildDense_getD (segs : List Seg) (m i k : ℕ) (hm : 2 ≤ m)
    (hi : i < segs.length) (hk : k < m) (h0 : i = 0 ∨ 1 ≤ k) :
    (buildDense segs m).getD (i * (m - 1) + k) default
      = bezierPoint (segs.getD i default) ((k : ℚ) / ((m : ℚ) - 1)) := by
  match segs with
  | [] => simp at hi
  | s :: rest =>
    match i with
    | 0 =>
      simp only [buildDense, Nat.zero_mul, Nat.zero_add]
      rw [List.getD_append _ _ _ _ (by rw [sample_bezier_length]; exact hk)]
      rw [sample_bezier_getD s m k hk]
      simp
    | i' + 1 =>
      have hk1 : 1 ≤ k := by
        rcases h0 with h | h
        · omega
        · exact h
      have hmul : (i' + 1) * (m - 1) = i' * (m - 1) + (m - 1) := by ring
      have hi' : i' < rest.length := by
        simp only [List.length_cons] at hi
        omega
      simp only [buildDense]
      rw [List.getD_append_right]
      · rw [sample_bezier_length]
        have harith : (i' + 1) * (m - 1) + k - m = i' * (m - 1) + (k - 1) := by
          rw [hmul]; omega
        rw [harith]
        have := denseTail_getD m k hm hk1 hk rest i' hi'
        rw [this]
        simp
      · rw [sample_bezier_length, hmul]
        omega

theorem buildDense_length (segs : List Seg) (m : ℕ) (hs : segs ≠ []) :
    (buildDense segs m).length = m + (segs.length - 1) * (m - 1) := by
  match segs with
  | [] => simp at hs
  | s :: rest =>
    simp only [buildDense, List.length_append, sample_bezier_length, denseTail_length,
      List.length_cons, Nat.succ_sub_one]

theorem denseOf_length (pts : List Pt) (m : ℕ) (h2 : 2 ≤ pts.length) (hm : 1 ≤ m) :
    (denseOf pts m).length = 1 + (pts.length - 1) * (m - 1) := by
  have hne : catmullSegs pts ≠ [] := by
    have := catmullSegs_length pts
    intro h
    rw [h] at this
    simp at this
    omega
  rw [denseOf, buildDense_length _ m hne, catmullSegs_length]
  have h1 : pts.length - 1 = (pts.length - 2) + 1 := by omega
  rw [h1]
  generalize (pts.length - 2) = a
  rw [Nat.succ_mul]
  rw [Nat.succ_sub_one]
  generalize (a * (m - 1)) = b
  omega

theorem denseOf_ctrl (pts : List Pt) (m i : ℕ) (hm : 2 ≤ m) (h2 : 2 ≤ pts.length)
    (hi : i < pts.length) :
    (denseOf pts m).getD (i * (m - 1)) default = pts.getD i default := by
  match i with
  | 0 =>
    have h := buildDense_getD (catmullSegs pts) m 0 0 hm
      (by rw [catmullSegs_length]; omega) (by omega) (Or.inl rfl)
    simp only [Nat.zero_mul, Nat.zero_add, Nat.cast_zero, zero_div] at h
    rw [denseOf]
    simp only [Nat.zero_mul]
    rw [h, bezierPoint_zero]
    exact (catmullSegs_endpoints pts 0 (by omega)).1
  | i' + 1 =>
    have hmul : (i' + 1) * (m - 1) = i' * (m - 1) + (m - 1) := by ring
    have h := buildDense_getD (catmullSegs pts) m i' (m - 1) hm
      (by rw [catmullSegs_length]; omega) (by omega) (Or.inr (by omega))
    rw [denseOf, hmul, h, cast_pred_div_pred m hm, bezierPoint_one]
    exact (catmullSegs_endpoints pts i' (by omega)).2

/-! ## Pipeline plumbing -/

theorem sortByX_length (mids : List Pt) : (sortByX mids).length = mids.length :=
  List.length_insertionSort _ _

theorem foldl_set_length (dense : List Pt) (ps : List Pt) :
    ∀ init : List String,
      (ps.foldl (fun labels p => labels.set (labelIdx dense p) (fmtPct p.y)) init).length
        = init.length := by
  induction ps with
  | nil => intro init; rfl
  | cons p rest ih =>
    intro init
    rw [List.foldl_cons, ih, List.length_set]

theorem placeLabels_length (dense mids : List Pt) :
    (placeLabels dense mids).length = dense.length := by
  unfold placeLabels
  rw [foldl_set_length, List.length_replicate]

theorem mkRows_length (dense : List Pt) (labels : List String)
    (h : labels.length = dense.length) :
    (mkRows dense labels).length = dense.length := by
  unfold mkRows
  rw [List.length_map, List.length_zip, h, Nat.min_self]

theorem runPipeline_ok (mids : List Pt) (n : ℤ) (h2 : 2 ≤ mids.length) (h4 : 4 ≤ n) :
    runPipeline mids n
      = .ok (mkRows (denseOf (sortByX mids) n.toNat)
          (placeLabels (denseOf (sortByX mids) n.toNat) (sortByX mids))) := by
  unfold runPipeline catmull_rom_to_bezier
  rw [if_neg (by omega)]
  rw [if_neg (by rw [sortByX_length]; omega)]
  rfl

theorem runPipeline_rows_length (mids : List Pt) (n : ℤ) (h2 : 2 ≤ mids.length)
    (h4 : 4 ≤ n) (rows : List Row) (h : runPipeline mids n = .ok rows) :
    rows.length = 1 + (mids.length - 1) * (n.toNat - 1) := by
  rw [runPipeline_ok mids n h2 h4] at h
  injection h with hrows
  rw [← hrows, mkRows_length _ _ (by rw [placeLabels_length]),
    denseOf_length _ _ (by rw [sortByX_length]; omega) (by omega), sortByX_length]

/-! ## Claim theorems (first batch) -/

/-- C1: for n ≥ 2 control points the segment builder yields exactly n-1 cubic
Bezier segments; the extended sequence carries the two mirrored virtual
endpoints, and segment i is the Catmull-Rom window `(E i, E (i+1), E (i+2),
E (i+3))` converted with `C1 = Pi + (Pi+1 - Pi-1)/6`, `C2 = Pi+1 -
(Pi+2 - Pi)/6`, its on-curve endpoints being the real points i and i+1. -/
theorem C1_segment_builder (pts : List Pt) (h2 : 2 ≤ pts.length) :
    ∃ segs, catmull_rom_to_bezier pts = .ok segs ∧
      segs.length = pts.length - 1 ∧
      (extSeq pts).getD 0 default
        = ⟨(pts.getD 0 default).x - ((pts.getD 1 default).x - (pts.getD 0 default).x),
           (pts.getD 0 default).y - ((pts.getD 1 default).y - (pts.getD 0 default).y)⟩ ∧
      (extSeq pts).getD (pts.length + 1) default
        = ⟨(pts.getD (pts.length - 1) default).x
             + ((pts.getD (pts.length - 1) default).x
                 - (pts.getD (pts.length - 2) default).x),
           (pts.getD (pts.length - 1) default).y
             + ((pts.getD (pts.length - 1) default).y
                 - (pts.getD (pts.length - 2) default).y)⟩ ∧
      ∀ i, i < pts.length - 1 →
        segs.getD i default
          = ((extSeq pts).getD (i + 1) default,
             ⟨((extSeq pts).getD (i + 1) default).x
                + (((extSeq pts).getD (i + 2) default).x
                    - ((extSeq pts).getD i default).x) / 6,
              ((extSeq pts).getD (i + 1) default).y
                + (((extSeq pts).getD (i + 2) default).y
                    - ((extSeq pts).getD i default).y) / 6⟩,
             ⟨((extSeq pts).getD (i + 2) default).x
                - (((extSeq pts).getD (i + 3) default).x
                    - ((extSeq pts).getD (i + 1) default).x) / 6,
              ((extSeq pts).getD (i + 2) default).y
                - (((extSeq pts).getD (i + 3) default).y
                    - ((extSeq pts).getD (i + 1) default).y) / 6⟩,
             (extSeq pts).getD (i + 2) default) ∧
          (extSeq pts).getD (i + 1) default = pts.getD i default ∧
          (extSeq pts).getD (i + 2) default = pts.getD (i + 1) default := by
  refine ⟨catmullSegs pts, ?_, catmullSegs_length pts, ?_, ?_, ?_⟩
  · unfold catmull_rom_to_bezier
    rw [if_neg (by omega)]
  · rfl
  · have h : extSeq pts
        = (mirrorFirst (pts.getD 0 default) (pts.getD 1 default) :: pts)
          ++ [mirrorLast (pts.getLastD default) (pts.getD (pts.length - 2) default)] := rfl
    rw [h, List.getD_append_right _ _ _ _ (by simp only [List.length_cons]; omega)]
    simp only [List.length_cons]
    have hidx : pts.length + 1 - (pts.length + 1) = 0 := by omega
    rw [hidx]
    have hlast : pts.getLastD default = pts.getD (pts.length - 1) default := by
      rw [List.getLastD_eq_getLast?, List.getLast?_eq_getElem?,
        List.getD_eq_getElem?_getD]
    simp only [List.getD_cons_zero, mirrorLast, hlast]
  · intro i hi
    refine ⟨?_, extSeq_getD_succ pts i (by omega), ?_⟩
    · rw [catmullSegs_getD pts i hi]
      rfl
    · have h : i + 2 = (i + 1) + 1 := by omega
      rw [h, extSeq_getD_succ pts (i + 1) (by omega)]

/-- C2: for n ≥ 2 control points and samplesPerSegment ≥ 4 the pipeline
succeeds and its dense output has exactly 1 + (n-1)(samplesPerSegment-1)
rows. -/
theorem C2_dense_length (mids : List Pt) (nPerSeg : ℤ) (h2 : 2 ≤ mids.length)
    (h4 : 4 ≤ nPerSeg) :
    ∃ rows, runPipeline mids nPerSeg = .ok rows ∧
      rows.length = 1 + (mids.length - 1) * (nPerSeg.toNat - 1) :=
  ⟨_, runPipeline_ok mids nPerSeg h2 h4,
    runPipeline_rows_length mids nPerSeg h2 h4 _ (runPipeline_ok mids nPerSeg h2 h4)⟩

/-- C3: the Bernstein form evaluates to the on-curve endpoints exactly at
t = 0 and t = 1, so the first and last dense samples equal the first and
last control points exactly. -/
theorem C3_endpoints (s : Seg) (m : ℕ) (hm : 2 ≤ m) (pts : List Pt)
    (h2 : 2 ≤ pts.length) :
    (sample_bezier s m).getD 0 default = s.1 ∧
    (sample_bezier s m).getD (m - 1) default = s.2.2.2 ∧
    (denseOf pts m).getD 0 default = pts.getD 0 default ∧
    (denseOf pts m).getD ((denseOf pts m).length - 1) default
      = pts.getD (pts.length - 1) default := by
  refine ⟨?_, ?_, ?_, ?_⟩
  · rw [sample_bezier_getD s m 0 (by omega)]
    simp only [Nat.cast_zero, zero_div]
    exact bezierPoint_zero s
  · rw [sample_bezier_getD s m (m - 1) (by omega), cast_pred_div_pred m hm]
    exact bezierPoint_one s
  · have h := denseOf_ctrl pts m 0 hm h2 (by omega)
    simpa using h
  · have hlen := denseOf_length pts m h2 (by omega)
    have hidx : (denseOf pts m).length - 1 = (pts.length - 1) * (m - 1) := by
      rw [hlen]
      omega
    rw [hidx]
    exact denseOf_ctrl pts m (pts.length - 1) hm h2 (by omega)

/-- C9: with exact arithmetic every control point P[i] appears in the dense
sequence, as the sample at index i*(samplesPerSegment-1): the interior
control points are exactly the deduplicated join samples. -/
theorem C9_ctrl_points_in_dense (pts : List Pt) (m : ℕ)
    (_hasc : List.Chain' (fun a b => a.x < b.x) pts) (h2 : 2 ≤ pts.length)
    (hm : 2 ≤ m) :
    ∀ i, i < pts.length →
      (denseOf pts m).getD (i * (m - 1)) default = pts.getD i default :=
  fun i hi => denseOf_ctrl pts m i hm h2 hi

/-- C8: any samples-per-segment below 4 is refused before any sampling work:
the pipeline reports invalid input. -/
theorem C8_min_density (mids : List Pt) (nPerSeg : ℤ) (h : nPerSeg < 4) :
    runPipeline mids nPerSeg = .error "InvalidInput" := by
  unfold runPipeline
  rw [if_pos h]

/-! ## Concrete data for witnesses: the spec's scenario input -/

/-- The concrete scenario control points of the spec:
(2.0, 0.40), (3.5, 0.49), (4.0, 0.55), (5.5, 0.60), (6.5, 0.70). -/
def specPts : List Pt :=
  [⟨2, 2/5⟩, ⟨7/2, 49/100⟩, ⟨4, 11/20⟩, ⟨11/2, 3/5⟩, ⟨13/2, 7/10⟩]

theorem C2_dense_length_witness :
    ∃ rows, runPipeline specPts 10 = .ok rows ∧
      rows.length = 1 + (specPts.length - 1) * ((10 : ℤ).toNat - 1) :=
  C2_dense_length specPts 10 (by decide) (by decide)

theorem C3_endpoints_witness :
    (sample_bezier (⟨0, 0⟩, ⟨1, 0⟩, ⟨2, 0⟩, ⟨3, 0⟩) 10).getD 0 default
        = (⟨0, 0⟩ : Pt) ∧
    (sample_bezier (⟨0, 0⟩, ⟨1, 0⟩, ⟨2, 0⟩, ⟨3, 0⟩) 10).getD (10 - 1) default
        = (⟨3, 0⟩ : Pt) ∧
    (denseOf specPts 10).getD 0 default = specPts.getD 0 default ∧
    (denseOf specPts 10).getD ((denseOf specPts 10).length - 1) default
        = specPts.getD (specPts.length - 1) default :=
  C3_endpoints (⟨0, 0⟩, ⟨1, 0⟩, ⟨2, 0⟩, ⟨3, 0⟩) 10 (by decide) specPts (by decide)

theorem C9_ctrl_points_in_dense_witness :
    (denseOf specPts 10).getD (2 * (10 - 1)) default = specPts.getD 2 default :=
  C9_ctrl_points_in_dense specPts 10
    (by simp [List.chain'_cons, specPts]; norm_num) (by decide) (by decide) 2 (by decide)

theorem C8_min_density_witness :
    runPipeline specPts 2 = .error "InvalidInput" :=
  C8_min_density specPts 2 (by decide)

/-! ## idxmin: first index of the minimum -/

theorem getD_cons_succ {α : Type} (a : α) (l : List α) (n : ℕ) (d : α) :
    (a :: l).getD (n + 1) d = l.getD n d := rfl

theorem getD_cons_zero {α : Type} (a : α) (l : List α) (d : α) :
    (a :: l).getD 0 d = a := rfl

theorem idxmin_cons_cons_pos (a b : ℚ) (rest2 : List ℚ)
    (hc : (b :: rest2).getD (idxmin (b :: rest2)) 0 < a) :
    idxmin (a :: b :: rest2) = idxmin (b :: rest2) + 1 := by
  simp only [idxmin]
  rw [if_pos hc]

theorem idxmin_cons_cons_neg (a b : ℚ) (rest2 : List ℚ)
    (hc : ¬(b :: rest2).getD (idxmin (b :: rest2)) 0 < a) :
    idxmin (a :: b :: rest2) = 0 := by
  simp only [idxmin]
  rw [if_neg hc]

theorem idxmin_lt_length : ∀ l : List ℚ, l ≠ [] → idxmin l < l.length := by
  intro l
  induction l with
  | nil => intro h; exact absurd rfl h
  | cons a rest ih =>
    intro _
    match rest with
    | [] => simp [idxmin]
    | b :: rest2 =>
      by_cases hc : (b :: rest2).getD (idxmin (b :: rest2)) 0 < a
      · rw [idxmin_cons_cons_pos a b rest2 hc, List.length_cons]
        have := ih (by simp)
        omega
      · rw [idxmin_cons_cons_neg a b rest2 hc]
        simp

theorem idxmin_le : ∀ l : List ℚ, ∀ k, k < l.length →
    l.getD (idxmin l) 0 ≤ l.getD k 0 := by
  intro l
  induction l with
  | nil => intro k hk; simp at hk
  | cons a rest ih =>
    intro k hk
    match rest with
    | [] =>
      have hk0 : k = 0 := by
        simp only [List.length_cons, List.length_nil] at hk
        omega
      subst hk0
      exact le_refl _
    | b :: rest2 =>
      by_cases hc : (b :: rest2).getD (idxmin (b :: rest2)) 0 < a
      · rw [idxmin_cons_cons_pos a b rest2 hc, getD_cons_succ]
        match k with
        | 0 => exact le_of_lt hc
        | k' + 1 =>
          rw [getD_cons_succ]
          exact ih k' (by simp only [List.length_cons] at hk ⊢; omega)
      · rw [idxmin_cons_cons_neg a b rest2 hc, getD_cons_zero]
        push_neg at hc
        match k with
        | 0 => exact le_refl a
        | k' + 1 =>
          rw [getD_cons_succ]
          exact le_trans hc (ih k' (by simp only [List.length_cons] at hk ⊢; omega))

theorem idxmin_first : ∀ l : List ℚ, ∀ k, k < idxmin l →
    l.getD (idxmin l) 0 < l.getD k 0 := by
  intro l
  induction l with
  | nil => intro k hk; simp [idxmin] at hk
  | cons a rest ih =>
    intro k hk
    match rest with
    | [] => simp [idxmin] at hk
    | b :: rest2 =>
      by_cases hc : (b :: rest2).getD (idxmin (b :: rest2)) 0 < a
      · rw [idxmin_cons_cons_pos a b rest2 hc] at hk ⊢
        rw [getD_cons_succ]
        match k with
        | 0 => exact hc
        | k' + 1 =>
          rw [getD_cons_succ]
          exact ih k' (by omega)
      · rw [idxmin_cons_cons_neg a b rest2 hc] at hk
        omega

/-! ## Label placement -/

theorem getD_map_abs (dense : List Pt) (p : Pt) (j : ℕ) (hj : j < dense.length) :
    (dense.map fun q => |q.x - p.x|).getD j 0 = |(dense.getD j default).x - p.x| := by
  have hj2 : j < (dense.map fun q => |q.x - p.x|).length := by
    rw [List.length_map]
    exact hj
  rw [List.getD_eq_getElem _ _ hj2, List.getElem_map, List.getD_eq_getElem _ _ hj]

theorem labelIdx_lt_length (dense : List Pt) (p : Pt) (hd : dense ≠ []) :
    labelIdx dense p < dense.length := by
  have h := idxmin_lt_length (dense.map fun q => |q.x - p.x|) (by simpa using hd)
  rw [List.length_map] at h
  exact h

theorem labelIdx_min (dense : List Pt) (p : Pt) (k : ℕ) (hk : k < dense.length) :
    |(dense.getD (labelIdx dense p) default).x - p.x| ≤ |(dense.getD k default).x - p.x| := by
  have hd : dense ≠ [] := by
    intro h
    rw [h] at hk
    simp at hk
  have hlt : labelIdx dense p < dense.length := labelIdx_lt_length dense p hd
  have h := idxmin_le (dense.map fun q => |q.x - p.x|) k (by rw [List.length_map]; exact hk)
  rw [show idxmin (dense.map fun q => |q.x - p.x|) = labelIdx dense p from rfl] at h
  rw [getD_map_abs dense p k hk, getD_map_abs dense p _ hlt] at h
  exact h

theorem labelIdx_tiebreak (dense : List Pt) (p : Pt) (k : ℕ) (hk : k < labelIdx dense p)
    (hd : dense ≠ []) :
    |(dense.getD (labelIdx dense p) default).x - p.x| < |(dense.getD k default).x - p.x| := by
  have hlt : labelIdx dense p < dense.length := labelIdx_lt_length dense p hd
  have hklt : k < dense.length := lt_trans hk hlt
  have h : (dense.map fun q => |q.x - p.x|).getD (idxmin (dense.map fun q => |q.x - p.x|)) 0
      < (dense.map fun q => |q.x - p.x|).getD k 0 := idxmin_first _ k hk
  rw [show idxmin (dense.map fun q => |q.x - p.x|) = labelIdx dense p from rfl] at h
  rw [getD_map_abs dense p k hklt, getD_map_abs dense p _ hlt] at h
  exact h

theorem labelIdx_exact (dense : List Pt) (p : Pt) (j0 : ℕ) (hj0 : j0 < dense.length)
    (hx : (dense.getD j0 default).x = p.x) :
    (dense.getD (labelIdx dense p) default).x = p.x := by
  have hmin := labelIdx_min dense p j0 hj0
  rw [hx] at hmin
  simp only [sub_self, abs_zero] at hmin
  have hnonneg : 0 ≤ |(dense.getD (labelIdx dense p) default).x - p.x| := abs_nonneg _
  have : |(dense.getD (labelIdx dense p) default).x - p.x| = 0 := le_antisymm hmin hnonneg
  have := abs_eq_zero.mp this
  linarith [sub_eq_zero.mp this]

/-! ## The fold that writes the labels -/

theorem foldl_set_getD_notin (dense : List Pt) :
    ∀ (ps : List Pt) (init : List String) (j : ℕ),
      (∀ p ∈ ps, labelIdx dense p ≠ j) →
      (ps.foldl (fun labels p => labels.set (labelIdx dense p) (fmtPct p.y)) init).getD j ""
        = init.getD j "" := by
  intro ps
  induction ps with
  | nil => intro init j _; rfl
  | cons q rest ih =>
    intro init j hne
    rw [List.foldl_cons, ih _ _ (fun p hp => hne p (List.mem_cons_of_mem q hp))]
    rw [List.getD_eq_getElem?_getD, List.getD_eq_getElem?_getD,
      List.getElem?_set_ne (hne q (List.mem_cons_self q rest))]

theorem foldl_set_getD_mem (dense : List Pt) :
    ∀ (ps : List Pt) (init : List String) (p : Pt),
      ps.Pairwise (fun a b => labelIdx dense a ≠ labelIdx dense b) →
      p ∈ ps → labelIdx dense p < init.length →
      (ps.foldl (fun labels q => labels.set (labelIdx dense q) (fmtPct q.y)) init).getD
          (labelIdx dense p) ""
        = fmtPct p.y := by
  intro ps
  induction ps with
  | nil => intro init p _ hp; simp at hp
  | cons q rest ih =>
    intro init p hpw hp hlt
    rw [List.pairwise_cons] at hpw
    rw [List.foldl_cons]
    rcases List.mem_cons.mp hp with h | h
    · subst h
      rw [foldl_set_getD_notin dense rest _ _ (fun r hr => Ne.symm (hpw.1 r hr))]
      rw [List.getD_eq_getElem?_getD, List.getElem?_set_eq_of_lt _ hlt]
      rfl
    · exact ih _ p hpw.2 h (by rw [List.length_set]; exact hlt)

theorem countP_set_fresh (v : String) (hv : v ≠ "") :
    ∀ (l : List String) (i : ℕ), i < l.length → l.getD i "" = "" →
      (l.set i v).countP (fun s => decide (s ≠ ""))
        = l.countP (fun s => decide (s ≠ "")) + 1 := by
  intro l
  induction l with
  | nil => intro i hi; simp at hi
  | cons a t ih =>
    intro i hi hblank
    match i with
    | 0 =>
      rw [getD_cons_zero] at hblank
      subst hblank
      simp [List.countP_cons, hv]
    | i' + 1 =>
      rw [getD_cons_succ] at hblank
      have := ih i' (by simp at hi; omega) hblank
      simp only [List.set_cons_succ, List.countP_cons, this]
      omega

theorem foldl_set_countP (dense : List Pt) :
    ∀ (ps : List Pt) (init : List String),
      ps.Pairwise (fun a b => labelIdx dense a ≠ labelIdx dense b) →
      (∀ p ∈ ps, labelIdx dense p < init.length ∧ init.getD (labelIdx dense p) "" = "") →
      (ps.foldl (fun labels q => labels.set (labelIdx dense q) (fmtPct q.y)) init).countP
          (fun s => decide (s ≠ ""))
        = init.countP (fun s => decide (s ≠ "")) + ps.length := by
  intro ps
  induction ps with
  | nil => intro init _ _; rfl
  | cons q rest ih =>
    intro init hpw hpre
    rw [List.pairwise_cons] at hpw
    rw [List.foldl_cons]
    have hq := hpre q (List.mem_cons_self q rest)
    have hfmt : fmtPct q.y ≠ "" := by
      intro h
      have hL := congrArg String.length h
      rw [fmtPct, String.length_append] at hL
      have h1 : ("%" : String).length = 1 := rfl
      have h0 : ("" : String).length = 0 := rfl
      omega
    rw [ih _ hpw.2 ?_]
    · rw [countP_set_fresh _ hfmt _ _ hq.1 hq.2, List.length_cons]
      omega
    · intro p hp
      have hpq : labelIdx dense q ≠ labelIdx dense p := hpw.1 p hp
      constructor
      · rw [List.length_set]
        exact (hpre p (List.mem_cons_of_mem q hp)).1
      · rw [List.getD_eq_getElem?_getD, List.getElem?_set_ne hpq,
          ← List.getD_eq_getElem?_getD]
        exact (hpre p (List.mem_cons_of_mem q hp)).2

theorem getD_replicate_blank : ∀ (n j : ℕ), (List.replicate n ("" : String)).getD j "" = "" := by
  intro n
  induction n with
  | zero => intro j; rfl
  | succ n' ih =>
    intro j
    match j with
    | 0 => rfl
    | j' + 1 =>
      rw [List.replicate_succ, getD_cons_succ]
      exact ih j'

theorem countP_replicate_blank (n : ℕ) :
    (List.replicate n ("" : String)).countP (fun s => decide (s ≠ "")) = 0 := by
  induction n with
  | zero => rfl
  | succ n' ih =>
    rw [List.replicate_succ, List.countP_cons]
    simp [ih]

/-! ## Rows of the output table -/

theorem mkRows_getD (dense : List Pt) (labels : List String) (j : ℕ)
    (hj : j < dense.length) (hlen : labels.length = dense.length) :
    (mkRows dense labels).getD j default
      = ⟨(dense.getD j default).x, (dense.getD j default).y,
         perBandEntries (dense.getD j default), labels.getD j ""⟩ := by
  have hz : j < (dense.zip labels).length := by
    rw [List.length_zip, hlen, Nat.min_self]
    exact hj
  unfold mkRows
  rw [List.getD_eq_getElem _ _ (by rw [List.length_map]; exact hz), List.getElem_map,
    List.getElem_zip, List.getD_eq_getElem _ _ hj,
    List.getD_eq_getElem _ _ (by omega : j < labels.length)]

theorem mkRows_countP_label (dense : List Pt) (labels : List String)
    (hlen : labels.length = dense.length) :
    (mkRows dense labels).countP (fun r => decide (r.label ≠ ""))
      = labels.countP (fun s => decide (s ≠ "")) := by
  unfold mkRows
  rw [List.countP_map]
  have hmap : (dense.zip labels).map Prod.snd = labels :=
    List.map_snd_zip dense labels (by omega)
  conv_rhs => rw [← hmap]
  rw [List.countP_map]
  rfl

/-! ## The full label-placement specification over sorted control points -/

theorem denseOf_ne_nil (pts : List Pt) (m : ℕ) (h2 : 2 ≤ pts.length) (hm : 2 ≤ m) :
    denseOf pts m ≠ [] := by
  apply List.length_pos.mp
  rw [denseOf_length pts m h2 (by omega)]
  omega

theorem denseOf_exact_hit (pts : List Pt) (m : ℕ) (h2 : 2 ≤ pts.length) (hm : 2 ≤ m)
    (p : Pt) (hp : p ∈ pts) :
    ∃ j0, j0 < (denseOf pts m).length ∧ ((denseOf pts m).getD j0 default).x = p.x := by
  rcases List.mem_iff_getElem.mp hp with ⟨i, hi, hpi⟩
  refine ⟨i * (m - 1), ?_, ?_⟩
  · rw [denseOf_length pts m h2 (by omega)]
    have hmul : i * (m - 1) ≤ (pts.length - 1) * (m - 1) :=
      Nat.mul_le_mul_right (m - 1) (by omega)
    omega
  · rw [denseOf_ctrl pts m i hm h2 hi, List.getD_eq_getElem _ _ hi, hpi]

theorem labelIdx_hits_ctrl (pts : List Pt) (m : ℕ) (h2 : 2 ≤ pts.length) (hm : 2 ≤ m)
    (p : Pt) (hp : p ∈ pts) :
    ((denseOf pts m).getD (labelIdx (denseOf pts m) p) default).x = p.x := by
  rcases denseOf_exact_hit pts m h2 hm p hp with ⟨j0, hj0, hx⟩
  exact labelIdx_exact (denseOf pts m) p j0 hj0 hx

theorem labelIdx_pairwise (pts : List Pt) (m : ℕ) (h2 : 2 ≤ pts.length) (hm : 2 ≤ m)
    (hx : pts.Pairwise (fun a b => a.x ≠ b.x)) :
    pts.Pairwise (fun a b => labelIdx (denseOf pts m) a ≠ labelIdx (denseOf pts m) b) := by
  refine List.Pairwise.imp_of_mem ?_ hx
  intro a b ha hb hab heq
  apply hab
  have hha := labelIdx_hits_ctrl pts m h2 hm a ha
  have hhb := labelIdx_hits_ctrl pts m h2 hm b hb
  rw [← hha, ← hhb, heq]

theorem placeLabels_countP (pts : List Pt) (m : ℕ) (h2 : 2 ≤ pts.length) (hm : 2 ≤ m)
    (hx : pts.Pairwise (fun a b => a.x ≠ b.x)) :
    (placeLabels (denseOf pts m) pts).countP (fun s => decide (s ≠ "")) = pts.length := by
  unfold placeLabels
  have hpre : ∀ p ∈ pts,
      labelIdx (denseOf pts m) p
          < (List.replicate (denseOf pts m).length ("" : String)).length ∧
        (List.replicate (denseOf pts m).length ("" : String)).getD
            (labelIdx (denseOf pts m) p) "" = "" := by
    intro p hp
    refine ⟨?_, getD_replicate_blank _ _⟩
    rw [List.length_replicate]
    exact labelIdx_lt_length _ p (denseOf_ne_nil pts m h2 hm)
  rw [foldl_set_countP (denseOf pts m) pts _ (labelIdx_pairwise pts m h2 hm hx) hpre,
    countP_replicate_blank]
  omega

theorem placeLabels_getD_mem (pts : List Pt) (m : ℕ) (h2 : 2 ≤ pts.length) (hm : 2 ≤ m)
    (hx : pts.Pairwise (fun a b => a.x ≠ b.x)) (p : Pt) (hp : p ∈ pts) :
    (placeLabels (denseOf pts m) pts).getD (labelIdx (denseOf pts m) p) "" = fmtPct p.y := by
  unfold placeLabels
  apply foldl_set_getD_mem (denseOf pts m) pts _ p (labelIdx_pairwise pts m h2 hm hx) hp
  rw [List.length_replicate]
  exact labelIdx_lt_length _ p (denseOf_ne_nil pts m h2 hm)

/-- C6: for a valid input (n ≥ 2 points, pairwise-distinct x, density ≥ 4)
exactly n output rows carry a non-empty point label; each control point is
assigned to the dense sample of minimal |x - pt.x| distance, ties broken by
the earliest index, and that row carries the point's formatted label. -/
theorem C6_label_placement (mids : List Pt) (nPerSeg : ℤ) (h2 : 2 ≤ mids.length)
    (h4 : 4 ≤ nPerSeg) (hx : mids.Pairwise (fun a b => a.x ≠ b.x)) :
    ∃ rows, runPipeline mids nPerSeg = .ok rows ∧
      rows.countP (fun r => decide (r.label ≠ "")) = mids.length ∧
      ∀ p ∈ mids, ∃ j, j < rows.length ∧
        (rows.getD j default).label = fmtPct p.y ∧
        (rows.getD j default).x = p.x ∧
        (∀ k, k < rows.length →
          |(rows.getD j default).x - p.x| ≤ |(rows.getD k default).x - p.x|) ∧
        (∀ k, k < j → |(rows.getD j default).x - p.x| < |(rows.getD k default).x - p.x|) := by
  have hs2 : 2 ≤ (sortByX mids).length := by
    rw [sortByX_length]
    exact h2
  have hm : 2 ≤ (nPerSeg.toNat) := by omega
  have hperm : (sortByX mids).Perm mids := List.perm_insertionSort _ mids
  have hx' : (sortByX mids).Pairwise (fun a b => a.x ≠ b.x) :=
    (hperm.pairwise_iff (fun h => Ne.symm h)).mpr hx
  have hlab : (placeLabels (denseOf (sortByX mids) nPerSeg.toNat) (sortByX mids)).length
      = (denseOf (sortByX mids) nPerSeg.toNat).length := placeLabels_length _ _
  have hrl : (mkRows (denseOf (sortByX mids) nPerSeg.toNat)
        (placeLabels (denseOf (sortByX mids) nPerSeg.toNat) (sortByX mids))).length
      = (denseOf (sortByX mids) nPerSeg.toNat).length := mkRows_length _ _ hlab
  have hrowx : ∀ k, k < (denseOf (sortByX mids) nPerSeg.toNat).length →
      ((mkRows (denseOf (sortByX mids) nPerSeg.toNat)
          (placeLabels (denseOf (sortByX mids) nPerSeg.toNat) (sortByX mids))).getD k
            default).x
        = ((denseOf (sortByX mids) nPerSeg.toNat).getD k default).x := by
    intro k hk
    rw [mkRows_getD _ _ k hk hlab]
  refine ⟨_, runPipeline_ok mids nPerSeg h2 h4, ?_, ?_⟩
  · rw [mkRows_countP_label _ _ hlab, placeLabels_countP _ _ hs2 hm hx', sortByX_length]
  · intro p hp
    have hp' : p ∈ sortByX mids := hperm.mem_iff.mpr hp
    have hdne : denseOf (sortByX mids) nPerSeg.toNat ≠ [] := denseOf_ne_nil _ _ hs2 hm
    have hjlt : labelIdx (denseOf (sortByX mids) nPerSeg.toNat) p
        < (denseOf (sortByX mids) nPerSeg.toNat).length :=
      labelIdx_lt_length _ p hdne
    refine ⟨labelIdx (denseOf (sortByX mids) nPerSeg.toNat) p, by rw [hrl]; exact hjlt,
      ?_, ?_, ?_, ?_⟩
    · rw [mkRows_getD _ _ _ hjlt hlab]
      exact placeLabels_getD_mem _ _ hs2 hm hx' p hp'
    · rw [hrowx _ hjlt]
      exact labelIdx_hits_ctrl _ _ hs2 hm p hp'
    · intro k hk
      rw [hrl] at hk
      rw [hrowx _ hjlt, hrowx _ hk]
      exact labelIdx_min _ p k hk
    · intro k hk
      have hklt : k < (denseOf (sortByX mids) nPerSeg.toNat).length := lt_trans hk hjlt
      rw [hrowx _ hjlt, hrowx _ hklt]
      exact labelIdx_tiebreak _ p k hk hdne

theorem C6_label_placement_witness :
    ∃ rows, runPipeline specPts 10 = .ok rows ∧
      rows.countP (fun r => decide (r.label ≠ "")) = specPts.length ∧
      ∀ p ∈ specPts, ∃ j, j < rows.length ∧
        (rows.getD j default).label = fmtPct p.y ∧
        (rows.getD j default).x = p.x ∧
        (∀ k, k < rows.length →
          |(rows.getD j default).x - p.x| ≤ |(rows.getD k default).x - p.x|) ∧
        (∀ k, k < j → |(rows.getD j default).x - p.x| < |(rows.getD k default).x - p.x|) :=
  C6_label_placement specPts 10 (by decide) (by decide)
    (by simp [specPts, List.pairwise_cons]; norm_num)

theorem C1_segment_builder_witness :
    ∃ segs, catmull_rom_to_bezier specPts = .ok segs ∧
      segs.length = specPts.length - 1 ∧
      (extSeq specPts).getD 0 default
        = ⟨(specPts.getD 0 default).x
             - ((specPts.getD 1 default).x - (specPts.getD 0 default).x),
           (specPts.getD 0 default).y
             - ((specPts.getD 1 default).y - (specPts.getD 0 default).y)⟩ ∧
      (extSeq specPts).getD (specPts.length + 1) default
        = ⟨(specPts.getD (specPts.length - 1) default).x
             + ((specPts.getD (specPts.length - 1) default).x
                 - (specPts.getD (specPts.length - 2) default).x),
           (specPts.getD (specPts.length - 1) default).y
             + ((specPts.getD (specPts.length - 1) default).y
                 - (specPts.getD (specPts.length - 2) default).y)⟩ ∧
      ∀ i, i < specPts.length - 1 →
        segs.getD i default
          = ((extSeq specPts).getD (i + 1) default,
             ⟨((extSeq specPts).getD (i + 1) default).x
                + (((extSeq specPts).getD (i + 2) default).x
                    - ((extSeq specPts).getD i default).x) / 6,
              ((extSeq specPts).getD (i + 1) default).y
                + (((extSeq specPts).getD (i + 2) default).y
                    - ((extSeq specPts).getD i default).y) / 6⟩,
             ⟨((extSeq specPts).getD (i + 2) default).x
                - (((extSeq specPts).getD (i + 3) default).x
                    - ((extSeq specPts).getD (i + 1) default).x) / 6,
              ((extSeq specPts).getD (i + 2) default).y
                - (((extSeq specPts).getD (i + 3) default).y
                    - ((extSeq specPts).getD (i + 1) default).y) / 6⟩,
             (extSeq specPts).getD (i + 2) default) ∧
          (extSeq specPts).getD (i + 1) default = specPts.getD i default ∧
          (extSeq specPts).getD (i + 2) default = specPts.getD (i + 1) default :=
  C1_segment_builder specPts (by decide)

/-! ## C7: what the pipeline actually validates -/

/-- Two control points sharing x = 3.0, as in the spec's invalid scenario. -/
def dupXPts : List Pt := [⟨2, 2/5⟩, ⟨3, 1/2⟩, ⟨3, 11/20⟩, ⟨11/2, 3/5⟩, ⟨13/2, 7/10⟩]

/-- C7 counterexample: on an input with two control points at x = 3.0 the
pipeline does NOT fail — it runs to completion and produces 37 output rows,
contradicting the claim that duplicate-x inputs are rejected with
InvalidInput before any curve construction. -/
theorem C7_counterexample :
    ∃ rows, runPipeline dupXPts 10 = .ok rows ∧ rows.length = 37 :=
  ⟨_, runPipeline_ok dupXPts 10 (by decide) (by decide), by
    rw [runPipeline_rows_length dupXPts 10 (by decide) (by decide) _
      (runPipeline_ok dupXPts 10 (by decide) (by decide))]
    decide⟩

/-- C7 amended: the only point-set validation the pipeline performs is the
n ≥ 2 cardinality check of `catmull_rom_to_bezier`; with fewer than two
points (and an accepted sampling density) it fails before any curve
construction, with the `ValueError` message of the source. Duplicate-x and
non-finite coordinates are not checked. -/
theorem C7_too_few_points (mids : List Pt) (nPerSeg : ℤ) (h4 : 4 ≤ nPerSeg)
    (h2 : mids.length < 2) :
    runPipeline mids nPerSeg = .error "Need at least two points" := by
  unfold runPipeline catmull_rom_to_bezier
  rw [if_neg (by omega), if_pos (by rw [sortByX_length]; omega)]

theorem C7_too_few_points_witness :
    runPipeline [⟨1, 1⟩] 10 = .error "Need at least two points" :=
  C7_too_few_points [⟨1, 1⟩] 10 (by decide) (by decide)

/-! ## C10: the histogram share guard -/

/-- C10: if the cleaned rows are non-empty but none falls in the 2-7 bin
range, the in-range total is 0; every bin's share is then 0.0 and the run
completes without error: the division is guarded by `total_hc > 0`. -/
theorem C10_zero_total_guard (raw : List (Option ℚ × Option ℚ))
    (hne : cleanRows raw ≠ []) (hz : totalHC (cleanRows raw) = 0) :
    ∃ out, runHistogram raw = .ok out ∧ ∀ r ∈ out, r.share = 0 := by
  refine ⟨histRows (cleanRows raw), ?_, ?_⟩
  · unfold runHistogram
    rw [if_neg hne]
  · intro r hr
    unfold histRows at hr
    rcases List.mem_map.mp hr with ⟨t, ht, hre⟩
    rw [← hre]
    simp only [hz]
    norm_num

theorem C10_zero_total_guard_witness :
    cleanRows [(some 10, some 5)] ≠ [] ∧
      ∃ out, runHistogram [(some 10, some 5)] = .ok out ∧ ∀ r ∈ out, r.share = 0 := by
  have hclean : cleanRows [(some 10, some 5)] = [((10 : ℚ), (5 : ℚ))] := by
    unfold cleanRows
    simp only [List.filterMap]
    norm_num
  have hbins : histBins = [(2, 3), (3, 4), (4, 5), (5, 6), (6, 7)] := rfl
  have hz : totalHC (cleanRows [(some 10, some 5)]) = 0 := by
    rw [hclean]
    unfold totalHC histResults binSum
    rw [hbins]
    norm_num [List.enum, List.enumFrom, histMask, hbins, List.filter]
  refine ⟨by rw [hclean]; simp, C10_zero_total_guard _ (by rw [hclean]; simp) hz⟩

/-! ## C5: band membership -/

theorem perBandEntries_eq (p : Pt) :
    perBandEntries p
      = [if bandMask 0 2 3 p.x then some p.y else none,
         if bandMask 1 3 4 p.x then some p.y else none,
         if bandMask 2 4 5 p.x then some p.y else none,
         if bandMask 3 5 6 p.x then some p.y else none,
         if bandMask 4 6 7 p.x then some p.y else none] := rfl

theorem ite_some_eq_some {c : Prop} [Decidable c] (a : ℚ) :
    ((if c then some a else none) = some a) ↔ c := by
  split_ifs with h <;> simp [h]

theorem ite_some_ne_some {c : Prop} [Decidable c] (a : ℚ)
    (h : (if c then some a else none) ≠ some a) :
    (if c then some a else none) = none := by
  by_cases hc : c
  · rw [if_pos hc] at h
    exact absurd rfl h
  · rw [if_neg hc]

/-- C5 amended: a row's entry for band i is its y-value exactly when
`lower_i ≤ x ≤ upper_i - 1e-12` for every band except the last (the code
excludes a 1e-12 margin below the upper edge rather than using a strict
`x < upper_i`), and `lower_last ≤ x ≤ upper_last` for the last band;
otherwise the entry is blank. A sample with x exactly 4.0 belongs to
band "4–5" and not to band "3–4". -/
theorem C5_band_membership (p : Pt) (i : ℕ) (hi : i < bands.length) :
    ((perBandEntries p).getD i none = some p.y ↔
      ((bands.getD i (0, 0, "")).1 ≤ p.x ∧
        p.x ≤ (if i = bands.length - 1 then (bands.getD i (0, 0, "")).2.1
               else (bands.getD i (0, 0, "")).2.1 - bandEps))) ∧
    ((perBandEntries p).getD i none ≠ some p.y → (perBandEntries p).getD i none = none) ∧
    (p.x = 4 → (perBandEntries p).getD 1 none = none ∧
      (perBandEntries p).getD 2 none = some p.y) := by
  have hi5 : i < 5 := hi
  refine ⟨?_, ?_, ?_⟩
  · rw [perBandEntries_eq]
    interval_cases i <;>
      simp only [List.getD_eq_getElem?_getD, List.getElem?_cons_zero,
        List.getElem?_cons_succ, Option.getD_some, ite_some_eq_some, bandMask, bands,
        Bool.and_eq_true, decide_eq_true_eq]
  · rw [perBandEntries_eq]
    interval_cases i <;> exact ite_some_ne_some _
  · intro hx4
    rw [perBandEntries_eq]
    simp only [List.getD_eq_getElem?_getD, List.getElem?_cons_zero,
      List.getElem?_cons_succ, Option.getD_some, bandMask, hx4, bandEps,
      show bands.length - 1 = 4 from rfl]
    norm_num

theorem C5_band_membership_witness :
    (1 : ℕ) < bands.length ∧
      ((perBandEntries (⟨7/2, 49/100⟩ : Pt)).getD 1 none = some (⟨7/2, 49/100⟩ : Pt).y ↔
        ((bands.getD 1 (0, 0, "")).1 ≤ (⟨7/2, 49/100⟩ : Pt).x ∧
          (⟨7/2, 49/100⟩ : Pt).x
            ≤ (if (1 : ℕ) = bands.length - 1 then (bands.getD 1 (0, 0, "")).2.1
               else (bands.getD 1 (0, 0, "")).2.1 - bandEps))) ∧
      ((perBandEntries (⟨7/2, 49/100⟩ : Pt)).getD 1 none ≠ some (⟨7/2, 49/100⟩ : Pt).y →
        (perBandEntries (⟨7/2, 49/100⟩ : Pt)).getD 1 none = none) ∧
      ((⟨7/2, 49/100⟩ : Pt).x = 4 →
        (perBandEntries (⟨7/2, 49/100⟩ : Pt)).getD 1 none = none ∧
          (perBandEntries (⟨7/2, 49/100⟩ : Pt)).getD 2 none
            = some (⟨7/2, 49/100⟩ : Pt).y) :=
  ⟨by decide, C5_band_membership (⟨7/2, 49/100⟩ : Pt) 1 (by decide)⟩

/-- A two-point input whose second control point sits inside the code's
1e-12 guard margin just below the x = 4 boundary. -/
def epsPts : List Pt := [⟨3, 1/2⟩, ⟨4 - 1/10000000000000, 3/5⟩]

/-- C5 counterexample: the dense sample at index 3 of this run has
3 ≤ x < 4, so the claimed half-open rule `lower ≤ x < upper` puts it in
band "3–4"; the code's mask `x ≤ 4 - 1e-12` leaves its "3–4" entry (and
every other band entry) blank. -/
theorem C5_counterexample :
    ((denseOf epsPts 4).getD 3 default).x = 4 - 1/10000000000000 ∧
    (3 : ℚ) ≤ ((denseOf epsPts 4).getD 3 default).x ∧
    ((denseOf epsPts 4).getD 3 default).x < 4 ∧
    (perBandEntries ((denseOf epsPts 4).getD 3 default)).getD 1 none = none := by
  have hd : (denseOf epsPts 4).getD 3 default = (⟨4 - 1/10000000000000, 3/5⟩ : Pt) := by
    have h := denseOf_ctrl epsPts 4 1 (by decide) (by decide) (by decide)
    norm_num at h
    exact h
  rw [hd]
  refine ⟨rfl, by norm_num, by norm_num, ?_⟩
  rw [perBandEntries_eq]
  simp only [List.getD_eq_getElem?_getD, List.getElem?_cons_zero,
    List.getElem?_cons_succ, Option.getD_some, bandMask, bandEps,
    show bands.length - 1 = 4 from rfl]
  norm_num

/-! ## C4: monotonicity of the dense x-values -/

/-- Strictly ascending but unevenly spaced control points. -/
def bumpPts : List Pt := [⟨0, 0⟩, ⟨1, 0⟩, ⟨10, 0⟩]

/-- C4 counterexample: with strictly ascending control points (0,0), (1,0),
(10,0) and samplesPerSegment = 11 the dense x-values DECREASE between
indices 4 and 5: x(0.4) = 2/125 but x(0.5) = 0 on the first segment, whose
trailing Bezier control x-coordinate -2/3 lies left of the segment. -/
theorem C4_counterexample :
    List.Chain' (fun a b : Pt => a.x < b.x) bumpPts ∧
    ((denseOf bumpPts 11).getD 5 default).x < ((denseOf bumpPts 11).getD 4 default).x := by
  constructor
  · simp [bumpPts, List.chain'_cons]
  · have hseg : (catmullSegs bumpPts).getD 0 default = mkSeg (extSeq bumpPts) 0 :=
      catmullSegs_getD bumpPts 0 (by decide)
    have hs : mkSeg (extSeq bumpPts) 0
        = ((⟨0, 0⟩ : Pt), (⟨1/3, 0⟩ : Pt), (⟨-2/3, 0⟩ : Pt), (⟨1, 0⟩ : Pt)) := by
      unfold mkSeg extSeq bumpPts mirrorFirst mirrorLast
      norm_num [getD_cons_succ, getD_cons_zero, Pt.mk.injEq, Prod.mk.injEq]
    have h4 := buildDense_getD (catmullSegs bumpPts) 11 0 4 (by decide)
      (by rw [catmullSegs_length]; decide) (by decide) (Or.inl rfl)
    have h5 := buildDense_getD (catmullSegs bumpPts) 11 0 5 (by decide)
      (by rw [catmullSegs_length]; decide) (by decide) (Or.inl rfl)
    simp only [Nat.zero_mul, Nat.zero_add] at h4 h5
    unfold denseOf
    rw [h4, h5, hseg, hs]
    unfold bezierPoint
    norm_num

theorem ptsX_formula (pts : List Pt) (d : ℚ)
    (hsp : ∀ j, j + 1 < pts.length →
      (pts.getD (j + 1) default).x = (pts.getD j default).x + d) :
    ∀ j, j < pts.length → (pts.getD j default).x = (pts.getD 0 default).x + j * d := by
  intro j
  induction j with
  | zero => intro h; simp
  | succ j' ih =>
    intro h
    rw [hsp j' (by omega), ih (by omega)]
    push_cast
    ring

theorem extSeq_getD_last (pts : List Pt) :
    (extSeq pts).getD (pts.length + 1) default
      = mirrorLast (pts.getLastD default) (pts.getD (pts.length - 2) default) := by
  have h : extSeq pts
      = (mirrorFirst (pts.getD 0 default) (pts.getD 1 default) :: pts)
        ++ [mirrorLast (pts.getLastD default) (pts.getD (pts.length - 2) default)] := rfl
  rw [h, List.getD_append_right _ _ _ _ (by simp only [List.length_cons]; omega)]
  simp only [List.length_cons]
  have hidx : pts.length + 1 - (pts.length + 1) = 0 := by omega
  rw [hidx]
  rfl

theorem getLastD_eq_getD_pred (pts : List Pt) :
    pts.getLastD default = pts.getD (pts.length - 1) default := by
  rw [List.getLastD_eq_getLast?, List.getLast?_eq_getElem?, List.getD_eq_getElem?_getD]

theorem extX_formula (pts : List Pt) (d : ℚ) (h2 : 2 ≤ pts.length)
    (hsp : ∀ j, j + 1 < pts.length →
      (pts.getD (j + 1) default).x = (pts.getD j default).x + d) :
    ∀ j, j < pts.length + 2 →
      ((extSeq pts).getD j default).x = (pts.getD 0 default).x + ((j : ℚ) - 1) * d := by
  intro j hj
  have hpts := ptsX_formula pts d hsp
  match j with
  | 0 =>
    have h0 : (extSeq pts).getD 0 default
        = mirrorFirst (pts.getD 0 default) (pts.getD 1 default) := rfl
    rw [h0]
    simp only [mirrorFirst]
    rw [hpts 1 (by omega)]
    push_cast
    ring
  | j' + 1 =>
    by_cases hj' : j' < pts.length
    · rw [extSeq_getD_succ pts j' hj', hpts j' hj']
      push_cast
      ring
    · have hje : j' = pts.length := by omega
      subst hje
      rw [extSeq_getD_last]
      simp only [mirrorLast]
      rw [getLastD_eq_getD_pred, hpts (pts.length - 1) (by omega),
        hpts (pts.length - 2) (by omega)]
      have hc1 : ((pts.length - 1 : ℕ) : ℚ) = (pts.length : ℚ) - 1 := by
        push_cast [Nat.cast_sub (by omega : 1 ≤ pts.length)]
        ring
      have hc2 : ((pts.length - 2 : ℕ) : ℚ) = (pts.length : ℚ) - 2 := by
        push_cast [Nat.cast_sub (by omega : 2 ≤ pts.length)]
        ring
      rw [hc1, hc2]
      push_cast
      ring

theorem bezier_x_AP (P1 C1 C2 P2 : Pt) (e t : ℚ)
    (h1 : C1.x = P1.x + e / 3) (h2 : C2.x = P1.x + 2 * e / 3) (h3 : P2.x = P1.x + e) :
    (bezierPoint (P1, C1, C2, P2) t).x = P1.x + e * t := by
  simp only [bezierPoint]
  rw [h1, h2, h3]
  ring

theorem mkSeg_x_AP (pts : List Pt) (d : ℚ) (h2 : 2 ≤ pts.length)
    (hsp : ∀ j, j + 1 < pts.length →
      (pts.getD (j + 1) default).x = (pts.getD j default).x + d)
    (i : ℕ) (hi : i < pts.length - 1) (t : ℚ) :
    (bezierPoint (mkSeg (extSeq pts) i) t).x
      = (pts.getD 0 default).x + (i : ℚ) * d + d * t := by
  have hE := extX_formula pts d h2 hsp
  have h0 := hE i (by omega)
  have h1 := hE (i + 1) (by omega)
  have h2' := hE (i + 2) (by omega)
  have h3 := hE (i + 3) (by omega)
  have hseg : mkSeg (extSeq pts) i
      = ((extSeq pts).getD (i + 1) default,
         ⟨((extSeq pts).getD (i + 1) default).x
            + (((extSeq pts).getD (i + 2) default).x
                - ((extSeq pts).getD i default).x) / 6,
          ((extSeq pts).getD (i + 1) default).y
            + (((extSeq pts).getD (i + 2) default).y
                - ((extSeq pts).getD i default).y) / 6⟩,
         ⟨((extSeq pts).getD (i + 2) default).x
            - (((extSeq pts).getD (i + 3) default).x
                - ((extSeq pts).getD (i + 1) default).x) / 6,
          ((extSeq pts).getD (i + 2) default).y
            - (((extSeq pts).getD (i + 3) default).y
                - ((extSeq pts).getD (i + 1) default).y) / 6⟩,
         (extSeq pts).getD (i + 2) default) := rfl
  rw [hseg, bezier_x_AP _ _ _ _ d t ?_ ?_ ?_, h1]
  · push_cast
    ring
  · simp only
    rw [h0, h1, h2']
    push_cast
    ring
  · simp only
    rw [h1, h2', h3]
    push_cast
    ring
  · rw [h1, h2']
    push_cast
    ring

theorem denseX_formula (pts : List Pt) (d : ℚ) (m : ℕ) (h2 : 2 ≤ pts.length)
    (hm : 2 ≤ m)
    (hsp : ∀ j, j + 1 < pts.length →
      (pts.getD (j + 1) default).x = (pts.getD j default).x + d) :
    ∀ g, g < (denseOf pts m).length →
      ((denseOf pts m).getD g default).x
        = (pts.getD 0 default).x + d * (g : ℚ) / ((m : ℚ) - 1) := by
  intro g hg
  have hne : (m : ℚ) - 1 ≠ 0 := by
    have : (2 : ℚ) ≤ (m : ℚ) := by exact_mod_cast hm
    intro h
    linarith
  rw [denseOf_length pts m h2 (by omega)] at hg
  by_cases hgm : g < m
  · have h := buildDense_getD (catmullSegs pts) m 0 g hm
      (by rw [catmullSegs_length]; omega) hgm (Or.inl rfl)
    simp only [Nat.zero_mul, Nat.zero_add] at h
    unfold denseOf
    rw [h, catmullSegs_getD pts 0 (by omega), mkSeg_x_AP pts d h2 hsp 0 (by omega)]
    push_cast
    ring
  · have hm1 : 0 < m - 1 := by omega
    have hq := Nat.div_add_mod (g - m) (m - 1)
    have hr : (g - m) % (m - 1) < m - 1 := Nat.mod_lt _ hm1
    obtain ⟨q, r, hqr, hrlt⟩ :
        ∃ q r, (m - 1) * q + r = g - m ∧ r < m - 1 := ⟨_, _, hq, hr⟩
    have hcomm : (m - 1) * q = q * (m - 1) := Nat.mul_comm _ _
    have hglin : g = m + q * (m - 1) + r := by omega
    have hn1 : pts.length - 1 = (pts.length - 2) + 1 := by omega
    rw [hn1, Nat.succ_mul] at hg
    have hqlt : q < pts.length - 2 := by
      by_contra hcon
      push_neg at hcon
      have hmul : (pts.length - 2) * (m - 1) ≤ q * (m - 1) :=
        Nat.mul_le_mul_right _ hcon
      omega
    have hidx : (q + 1) * (m - 1) + (r + 1) = g := by
      rw [Nat.succ_mul]
      omega
    have h := buildDense_getD (catmullSegs pts) m (q + 1) (r + 1) hm
      (by rw [catmullSegs_length]; omega) (by omega) (Or.inr (by omega))
    rw [hidx] at h
    unfold denseOf
    rw [h, catmullSegs_getD pts (q + 1) (by omega),
      mkSeg_x_AP pts d h2 hsp (q + 1) (by omega)]
    have hgq : (g : ℚ) = (m : ℚ) + (q : ℚ) * ((m : ℚ) - 1) + (r : ℚ) := by
      rw [hglin]
      push_cast [Nat.cast_sub (by omega : 1 ≤ m)]
      ring
    rw [hgq]
    push_cast
    field_simp
    ring

/-- C4 amended: for control points strictly ascending in x with EQUAL
x-spacing d > 0 and any samplesPerSegment ≥ 4, the dense x-values are
monotonically non-decreasing (each segment's x-component is exactly linear
in t). Uneven spacing can break monotonicity, as the counterexample shows. -/
theorem C4_monotone_equal_spacing (pts : List Pt) (d : ℚ) (m : ℕ)
    (h2 : 2 ≤ pts.length) (hm : 4 ≤ m) (hd : 0 < d)
    (hsp : ∀ j, j + 1 < pts.length →
      (pts.getD (j + 1) default).x = (pts.getD j default).x + d) :
    ∀ g1 g2, g1 ≤ g2 → g2 < (denseOf pts m).length →
      ((denseOf pts m).getD g1 default).x ≤ ((denseOf pts m).getD g2 default).x := by
  intro g1 g2 h12 hg2
  have hm2 : 2 ≤ m := by omega
  rw [denseX_formula pts d m h2 hm2 hsp g1 (by omega),
    denseX_formula pts d m h2 hm2 hsp g2 hg2]
  have hpos : (0 : ℚ) < (m : ℚ) - 1 := by
    have : (2 : ℚ) ≤ (m : ℚ) := by exact_mod_cast hm2
    linarith
  have hgc : (g1 : ℚ) ≤ (g2 : ℚ) := by exact_mod_cast h12
  have hmul : d * (g1 : ℚ) ≤ d * (g2 : ℚ) :=
    mul_le_mul_of_nonneg_left hgc (le_of_lt hd)
  have hdiv : d * (g1 : ℚ) / ((m : ℚ) - 1) ≤ d * (g2 : ℚ) / ((m : ℚ) - 1) :=
    (div_le_div_iff_of_pos_right hpos).mpr hmul
  linarith

/-- Equally spaced control points for the amended-C4 witness. -/
def eqPts : List Pt := [⟨2, 1/2⟩, ⟨3, 3/5⟩, ⟨4, 2/5⟩]

theorem C4_monotone_equal_spacing_witness :
    ((denseOf eqPts 4).getD 3 default).x ≤ ((denseOf eqPts 4).getD 5 default).x :=
  C4_monotone_equal_spacing eqPts 1 4 (by decide) (by decide) (by decide)
    (by
      intro j hj
      have hj3 : j + 1 < 3 := hj
      have hj2 : j < 2 := by omega
      interval_cases j <;> norm_num [eqPts, getD_cons_succ, getD_cons_zero])
    3 5 (by decide) (by decide)

end OVP
